import Mathlib

/- Verification development for the PSK/QAM modulation identifier
(src/modulation_identifier.py): feature extraction (haar wavelet, median
filter, variance), threaded threshold calibration, and the threshold
classifier.

Conventions of the embedding:

* Floating point values of the source are embedded as exact rationals.

* pywt's single-level haar decomposition of an array x returns
  approximation coefficients (x[2k] + x[2k+1]) / sqrt 2 and detail
  coefficients (x[2k] - x[2k+1]) / sqrt 2, repeating the last sample when
  the length is odd (pywt's default symmetric extension).  To stay inside
  the rationals the embedding stores the unscaled pairwise sums and
  differences and applies the sqrt-2 factor at the one place it becomes
  observable: the median filter commutes with rescaling by a positive
  constant (its boundary padding value 0 is fixed by any scaling), and the
  variance is homogeneous of degree two, so the variance of the filtered
  scaled approximation equals the variance of the filtered unscaled sums
  divided by 2.  branch_without_normalization therefore halves the
  variance; the scaling facts are proved below (medfilt5_map_mul,
  variance_map_mul).

* amplitude_normalization divides the signal by its euclidean norm,
  again an irrational scalar.  The whole raw feature is homogeneous of
  degree two in the signal (branch_without_normalization_scale below), so
  the feature of the normalized signal equals the raw feature divided by
  the squared norm, which is rational; branch_with_normalization is
  defined that way.

* The data generation (DataTransmissionSimulator) and the randomness and
  scheduling of the calibration threads are external inputs: the embedded
  threshold_calculation receives the generated (qam, psk) signal pairs,
  the uniform draw of each trial (the source draws random.uniform(0, 0.05)
  from the process-global generator inside each thread), and the order in
  which the per-trial result dictionaries are drained from the queue
  (thread completion order). -/

namespace ModId

/- The Batteries rational arithmetic is irreducible by default, which keeps
the decide tactic from evaluating concrete runs of the embedded pipeline;
re-opening it is safe (the kernel can reduce these definitions, including
Nat.gcd). -/
attribute [local semireducible] Rat.add Rat.mul Rat.inv Rat.sub Rat.ofScientific

/-- One complex sample, with exact rational real and imaginary parts. -/
@[ext]
structure QC where
  re : ℚ
  im : ℚ
deriving DecidableEq

instance : Add QC := ⟨fun x y => ⟨x.re + y.re, x.im + y.im⟩⟩

/-- Rescaling a sample by a real scalar (embedded rational). -/
def QC.smul (c : ℚ) (x : QC) : QC := ⟨c * x.re, c * x.im⟩

/-- Rescaling every sample of a signal by the same scalar. -/
def scaleSig (c : ℚ) (s : List QC) : List QC := s.map (QC.smul c)

/-- The modulation class labels of the source (the strings "PSK", "QAM"). -/
inductive Label where
  | PSK
  | QAM
deriving DecidableEq

/-- Pairwise sums of consecutive samples, duplicating the final sample when
the length is odd.  These are pywt's haar approximation coefficients
multiplied by sqrt 2 (see the header comment). -/
def pairSums : List QC → List QC
  | [] => []
  | [a] => [a + a]
  | a :: b :: rest => (a + b) :: pairSums rest

/-- Pairwise differences of consecutive samples, the haar detail
coefficients multiplied by sqrt 2. -/
def pairDiffs : List QC → List QC
  | [] => []
  | [_] => [⟨0, 0⟩]
  | a :: b :: rest => ⟨a.re - b.re, a.im - b.im⟩ :: pairDiffs rest

/-- pywt.dwt(data, "haar"): the (approximation, detail) pair, in the
unscaled-by-sqrt-2 representation. -/
def haar_wavelet_transform (data : List QC) : List QC × List QC :=
  (pairSums data, pairDiffs data)

/-- Element access with the zero padding scipy.signal.medfilt applies at the
boundaries (out-of-range positions read as 0). -/
def getPad (xs : List ℚ) (i : ℤ) : ℚ :=
  if 0 ≤ i then xs.getD i.toNat 0 else 0

/-- The five-sample window centered at position i, with zero padding. -/
def window5 (xs : List ℚ) (i : ℕ) : List ℚ :=
  [getPad xs ((i : ℤ) - 2), getPad xs ((i : ℤ) - 1), getPad xs (i : ℤ),
    getPad xs ((i : ℤ) + 1), getPad xs ((i : ℤ) + 2)]

/-- Median of a window: scipy's order statistic at index kernel_size / 2 = 2
of the sorted window. -/
def median5 (w : List ℚ) : ℚ :=
  (w.insertionSort (· ≤ ·)).getD 2 0

/-- scipy.signal.medfilt(xs, kernel_size = 5): the median of the zero-padded
window at every position. -/
def medfilt5 (xs : List ℚ) : List ℚ :=
  (List.range xs.length).map (fun i => median5 (window5 xs i))

/-- median_filter of the source: medfilt(np.real(data), kernel_size = 5). -/
def median_filter (data : List QC) : List ℚ :=
  medfilt5 (data.map QC.re)

/-- np.mean, population mean. -/
def mean (xs : List ℚ) : ℚ := xs.sum / xs.length

/-- np.var, population variance (mean of squared deviations). -/
def variance (xs : List ℚ) : ℚ :=
  ((xs.map (fun x => (x - mean xs) ^ 2)).sum) / xs.length

/-- branch_without_normalization of the source: haar decomposition, keep only
the approximation component, median filter it, take the variance.  The final
division by 2 accounts for the sqrt-2 factor of the haar coefficients left
out of pairSums (see the header comment). -/
def branch_without_normalization (data : List QC) : ℚ :=
  variance (median_filter (haar_wavelet_transform data).1) / 2

/-- Squared euclidean norm of the complex signal (rational, unlike the norm
itself). -/
def sqnorm (data : List QC) : ℚ :=
  (data.map (fun z => z.re ^ 2 + z.im ^ 2)).sum

/-- branch_with_normalization of the source: the feature of the signal
divided by its euclidean norm.  Because the raw feature is homogeneous of
degree two (branch_without_normalization_scale below), this equals the raw
feature divided by the squared norm, which keeps the embedding rational. -/
def branch_with_normalization (data : List QC) : ℚ :=
  branch_without_normalization data / sqnorm data

/-- identifier of the source.  The threshold_normalized argument is accepted
(the source binds it but never reads it; the embedding makes that manifest by
leaving its type arbitrary) and the decision compares the non-normalized
feature against the first threshold. -/
def identifier {α : Type} (data : List QC) (threshold : ℚ)
    (threshold_normalized : α) : Label :=
  if branch_without_normalization data < threshold then Label.PSK else Label.QAM

/-- The spec's extract(signal, normalize): written from the spec's words for
the refinement comparison of the classifier claim. -/
def extractSpec (data : List QC) (normalize : Bool) : ℚ :=
  if normalize then branch_with_normalization data
  else branch_without_normalization data

/-- The spec's classify(signal, calibrated_threshold), written from the
spec's words: compute the feature with the calibrated threshold's
normalization mode, return PSK below the value and QAM otherwise. -/
def classifySpec (data : List QC) (value : ℚ) (normalized : Bool) : Label :=
  if extractSpec data normalized < value then Label.PSK else Label.QAM

/- Concrete signals used by witnesses and counterexamples. -/

/-- A real-valued signal (imaginary parts zero). -/
def rSig (xs : List ℚ) : List QC := xs.map (fun x => ⟨x, 0⟩)

/-- Twelve zero samples; its feature is 0. -/
def sigP : List QC := rSig [0, 0, 0, 0, 0, 0, 0, 0, 0, 0, 0, 0]

/-- Six zero samples followed by six samples of height 1/10; its raw feature
is 1/200 and its squared norm is 3/50. -/
def sigQ : List QC := rSig [0, 0, 0, 0, 0, 0, 1/10, 1/10, 1/10, 1/10, 1/10, 1/10]

/-- A length-3 signal, shorter than the median filter window. -/
def sig3 : List QC := rSig [1, 2, 3]

/-- A length-4 signal, shorter than the median filter window. -/
def sig4 : List QC := rSig [1, 2, 3, 4]

/- Threshold calibration (threshold_calculation and __calculate_threshold of
the source).  The generated labeled data, the per-trial uniform draw and the
queue drain order are inputs; everything else follows the source line by
line. -/

/-- The number of reference samples a candidate threshold classifies
correctly: the per-candidate counter accumulated by the scoring loop of
__calculate_threshold (predict PSK when the feature is below the candidate,
QAM otherwise, add one on a match with the true label). -/
def score (data : List (List QC × Label)) (thr : ℚ) : ℕ :=
  data.countP (fun m =>
    if branch_without_normalization m.1 < thr then decide (m.2 = Label.PSK)
    else decide (m.2 = Label.QAM))

/-- Keys of an association list, in insertion order. -/
def keysOf (l : List (ℚ × ℕ)) : List ℚ := l.map Prod.fst

/-- Python dict item assignment d[k] = v: replace the value in place when the
key exists (keeping its position in insertion order), append otherwise. -/
def dinsert (l : List (ℚ × ℕ)) (k : ℚ) (v : ℕ) : List (ℚ × ℕ) :=
  if k ∈ keysOf l then l.map (fun p => if p.1 = k then (k, v) else p)
  else l ++ [(k, v)]

/-- Python dict.update: assign every item of the other dict in its insertion
order. -/
def dupdate (l other : List (ℚ × ℕ)) : List (ℚ × ℕ) :=
  other.foldl (fun acc p => dinsert acc p.1 p.2) l

/-- Drain the queue of per-trial dicts in the given order and merge them into
one dict with repeated update calls, as the collection loop of
threshold_calculation does. -/
def aggregateDicts (dicts : List (List (ℚ × ℕ))) : List (ℚ × ℕ) :=
  dicts.foldl dupdate []

/-- One trial, __calculate_threshold: perturb the feature of the baseline
sample data[attempt] by plus and minus the drawn magnitude r, and score both
candidates over the whole reference set.  (In the source attempt is always
in range; the default sample of the embedding is never consulted for drain
orders drawn from the range of trial indices.) -/
def trialBase (data : List (List QC × Label)) (attempt : ℕ) : ℚ :=
  branch_without_normalization (data.getD attempt ([], Label.QAM)).1

/-- The candidate dict one trial puts on the queue: both perturbed candidates
with their scores, inserted in loop order. -/
def trialOutput (data : List (List QC × Label)) (attempt : ℕ) (r : ℚ) :
    List (ℚ × ℕ) :=
  dinsert
    (dinsert [] (trialBase data attempt + r) (score data (trialBase data attempt + r)))
    (trialBase data attempt - r) (score data (trialBase data attempt - r))

/-- Maximum of a list of scores (python max over the dict values; scores are
counts, so the empty default 0 is below every candidate list). -/
def maxList (l : List ℕ) : ℕ := l.foldr max 0

/-- Lines 71 and 72 of the source: take the maximum of the dict values and
return the first item carrying it, in dict insertion order; on an empty dict
python's max raises, which the embedding reports as none. -/
def pickMax (l : List (ℚ × ℕ)) : Option (ℚ × ℕ) :=
  if l.isEmpty then none
  else l.find? (fun p => decide (p.2 = maxList (l.map Prod.snd)))

/-- The labeled reference set built by the generation loop: for every
generated pair, first the QAM-modulated signal with label QAM, then the
PSK-modulated signal with label PSK. -/
def mkData (pairs : List (List QC × List QC)) : List (List QC × Label) :=
  pairs.foldr (fun pr acc => (pr.1, Label.QAM) :: (pr.2, Label.PSK) :: acc) []

/-- The merged candidate dict of one calibration run: trials are indexed by
0, ..., pairs.length - 1; draws gives each trial its uniform draw and order
is the queue drain order (thread completion order). -/
def theAggregate (pairs : List (List QC × List QC)) (draws : ℕ → ℚ)
    (order : List ℕ) : List (ℚ × ℕ) :=
  aggregateDicts (order.map (fun i => trialOutput (mkData pairs) i (draws i)))

/-- threshold_calculation of the source, with the generated signal pairs,
the per-trial draws, and the queue drain order as explicit inputs. -/
def threshold_calculation (pairs : List (List QC × List QC)) (draws : ℕ → ℚ)
    (order : List ℕ) : Option (ℚ × ℕ) :=
  pickMax (theAggregate pairs draws order)

/-- Modelled from the spec for the aggregation claim: item assignment where
a recurring key accumulates (adds to) the stored score instead of replacing
it. -/
def dinsertAccum (l : List (ℚ × ℕ)) (k : ℚ) (v : ℕ) : List (ℚ × ℕ) :=
  if k ∈ keysOf l then l.map (fun p => if p.1 = k then (k, p.2 + v) else p)
  else l ++ [(k, v)]

/-- Modelled from the spec: merging all trial dicts with accumulating
assignment. -/
def aggregateAccum (dicts : List (List (ℚ × ℕ))) : List (ℚ × ℕ) :=
  dicts.foldl (fun l other => other.foldl (fun acc p => dinsertAccum acc p.1 p.2) l) []

/-- The aggregate the spec's words describe (scores accumulate on key
collisions), over the same trial outputs as theAggregate. -/
def theAggregateSpec (pairs : List (List QC × List QC)) (draws : ℕ → ℚ)
    (order : List ℕ) : List (ℚ × ℕ) :=
  aggregateAccum (order.map (fun i => trialOutput (mkData pairs) i (draws i)))

/-- Value stored for a key in an association list (python d[k]). -/
def lookupV (l : List (ℚ × ℕ)) (k : ℚ) : Option ℕ :=
  (l.find? (fun p => decide (p.1 = k))).map Prod.snd

/-- A candidate threshold classifies the whole reference set correctly:
every PSK feature lies strictly below it and no QAM feature does. -/
def separates (data : List (List QC × Label)) (c : ℚ) : Prop :=
  ∀ m ∈ data, (m.2 = Label.PSK → branch_without_normalization m.1 < c) ∧
    (m.2 = Label.QAM → ¬ branch_without_normalization m.1 < c)

instance (data : List (List QC × Label)) (c : ℚ) :
    Decidable (separates data c) := by
  unfold separates
  exact List.decidableBAll _ data

/- Concrete calibration inputs for witnesses and counterexamples. -/

/-- Twelve constant zero samples (feature 0), used as both halves of a
generated pair. -/
def z12 : List QC := rSig [0, 0, 0, 0, 0, 0, 0, 0, 0, 0, 0, 0]

/-- Two generated pairs of all-zero signals: every feature is 0, so every
candidate scores 2 of 4 and all candidates tie at the maximum. -/
def tiePairs : List (List QC × List QC) := [(z12, z12), (z12, z12)]

/-- Distinct draws for the two trials of the tie scenario. -/
def tieDraws : ℕ → ℚ := fun i => if i = 0 then 1/100 else 1/50

/-- Equal draws for the two trials, making their candidate values collide. -/
def collideDraws : ℕ → ℚ := fun _ => 1/100

/-- One generated pair: QAM signal sigQ (feature 1/200), PSK signal sigP
(feature 0); perfectly separable with gap 1/200. -/
def sepPairs : List (List QC × List QC) := [(sigQ, sigP)]

/-- A small draw (1/400, inside the separating gap). -/
def smallDraw : ℕ → ℚ := fun _ => 1/400

/-- A large draw (1/25 = 0.04, allowed by uniform [0, 0.05] but wider than
the 1/200 separating gap). -/
def bigDraw : ℕ → ℚ := fun _ => 1/25

/- Homogeneity of the pipeline under positive rescaling of the signal.
These facts justify the rational representation of the haar sqrt-2 factor
and of the euclidean normalization (header comment), and they prove the
normalization invariance property of the spec. -/

@[simp]
theorem QC.add_re (x y : QC) : (x + y).re = x.re + y.re := rfl

@[simp]
theorem QC.add_im (x y : QC) : (x + y).im = x.im + y.im := rfl

@[simp]
theorem QC.smul_re (c : ℚ) (x : QC) : (QC.smul c x).re = c * x.re := rfl

@[simp]
theorem QC.smul_im (c : ℚ) (x : QC) : (QC.smul c x).im = c * x.im := rfl

theorem QC.smul_add (c : ℚ) (x y : QC) :
    QC.smul c x + QC.smul c y = QC.smul c (x + y) := by
  ext <;> simp <;> ring

theorem pairSums_scale (c : ℚ) : ∀ s : List QC,
    pairSums (scaleSig c s) = scaleSig c (pairSums s)
  | [] => rfl
  | [a] => by
      show [QC.smul c a + QC.smul c a] = [QC.smul c (a + a)]
      rw [QC.smul_add]
  | a :: b :: rest => by
      show (QC.smul c a + QC.smul c b) :: pairSums (scaleSig c rest)
          = QC.smul c (a + b) :: scaleSig c (pairSums rest)
      rw [QC.smul_add, pairSums_scale c rest]

theorem map_re_scaleSig (c : ℚ) (l : List QC) :
    (scaleSig c l).map QC.re = (l.map QC.re).map (fun x => c * x) := by
  simp only [scaleSig, List.map_map]
  rfl

theorem getPad_map_mul (c : ℚ) (xs : List ℚ) (i : ℤ) :
    getPad (xs.map (fun x => c * x)) i = c * getPad xs i := by
  unfold getPad
  split
  · rw [List.getD_eq_getElem?_getD, List.getD_eq_getElem?_getD, List.getElem?_map]
    cases xs[i.toNat]? with
    | none => simp
    | some x => simp
  · simp

theorem window5_map_mul (c : ℚ) (xs : List ℚ) (i : ℕ) :
    window5 (xs.map (fun x => c * x)) i = (window5 xs i).map (fun x => c * x) := by
  simp [window5, getPad_map_mul]

theorem insertionSort_map_mul (c : ℚ) (hc : 0 < c) (w : List ℚ) :
    (w.map (fun x => c * x)).insertionSort (· ≤ ·) =
      (w.insertionSort (· ≤ ·)).map (fun x => c * x) := by
  have hperm : List.Perm ((w.map (fun x => c * x)).insertionSort (· ≤ ·))
      ((w.insertionSort (· ≤ ·)).map (fun x => c * x)) :=
    (List.perm_insertionSort _ _).trans
      (((List.perm_insertionSort _ w).map _).symm)
  have hs : List.Sorted (fun a b : ℚ => a ≤ b)
      ((w.insertionSort (· ≤ ·)).map (fun x => c * x)) :=
    List.Pairwise.map _
      (fun a b h => mul_le_mul_of_nonneg_left h hc.le)
      (List.sorted_insertionSort _ w)
  exact List.eq_of_perm_of_sorted hperm (List.sorted_insertionSort _ _) hs

theorem median5_map_mul (c : ℚ) (hc : 0 < c) (w : List ℚ) :
    median5 (w.map (fun x => c * x)) = c * median5 w := by
  unfold median5
  rw [insertionSort_map_mul c hc,
    List.getD_eq_getElem?_getD, List.getD_eq_getElem?_getD, List.getElem?_map]
  cases (w.insertionSort (· ≤ ·))[2]? with
  | none => simp
  | some x => simp

theorem medfilt5_map_mul (c : ℚ) (hc : 0 < c) (xs : List ℚ) :
    medfilt5 (xs.map (fun x => c * x)) = (medfilt5 xs).map (fun x => c * x) := by
  unfold medfilt5
  rw [List.length_map, List.map_map]
  refine List.map_congr_left (fun i _ => ?_)
  show median5 (window5 (xs.map (fun x => c * x)) i) = c * median5 (window5 xs i)
  rw [window5_map_mul, median5_map_mul c hc]

theorem sum_map_mul (c : ℚ) (xs : List ℚ) :
    (xs.map (fun x => c * x)).sum = c * xs.sum := by
  simpa using List.sum_map_mul_left xs id c

theorem mean_map_mul (c : ℚ) (xs : List ℚ) :
    mean (xs.map (fun x => c * x)) = c * mean xs := by
  unfold mean
  rw [sum_map_mul, List.length_map, mul_div_assoc]

theorem variance_map_mul (c : ℚ) (xs : List ℚ) :
    variance (xs.map (fun x => c * x)) = c ^ 2 * variance xs := by
  unfold variance
  rw [List.length_map, mean_map_mul, List.map_map]
  have hfun : ((fun x => (x - c * mean xs) ^ 2) ∘ (fun x => c * x))
      = fun x => c ^ 2 * ((x - mean xs) ^ 2) := by
    funext x
    simp only [Function.comp_apply]
    ring
  rw [hfun, List.sum_map_mul_left xs (fun x => (x - mean xs) ^ 2) (c ^ 2),
    mul_div_assoc]

theorem sqnorm_scale (c : ℚ) (s : List QC) :
    sqnorm (scaleSig c s) = c ^ 2 * sqnorm s := by
  unfold sqnorm scaleSig
  rw [List.map_map]
  have hfun : ((fun z : QC => z.re ^ 2 + z.im ^ 2) ∘ QC.smul c)
      = fun z : QC => c ^ 2 * (z.re ^ 2 + z.im ^ 2) := by
    funext z
    simp only [Function.comp_apply, QC.smul_re, QC.smul_im]
    ring
  rw [hfun, List.sum_map_mul_left s (fun z : QC => z.re ^ 2 + z.im ^ 2) (c ^ 2)]

/-- The raw feature is homogeneous of degree two in the signal. -/
theorem branch_without_normalization_scale (c : ℚ) (hc : 0 < c) (s : List QC) :
    branch_without_normalization (scaleSig c s)
      = c ^ 2 * branch_without_normalization s := by
  unfold branch_without_normalization median_filter haar_wavelet_transform
  rw [pairSums_scale, map_re_scaleSig, medfilt5_map_mul c hc, variance_map_mul,
    mul_div_assoc]

/-- C9: the normalized feature is invariant under rescaling every sample by
the same positive real: extract(c * s, normalize = true) equals
extract(s, normalize = true). -/
theorem extract_normalized_scale_invariant (s : List QC) (c : ℚ) (hc : 0 < c) :
    branch_with_normalization (scaleSig c s) = branch_with_normalization s := by
  unfold branch_with_normalization
  rw [branch_without_normalization_scale c hc, sqnorm_scale]
  exact mul_div_mul_left _ _ (pow_ne_zero 2 hc.ne')

/-- C9 witness: the invariance at the concrete signal sigQ and factor 2. -/
theorem extract_normalized_scale_invariant_w :
    (0 : ℚ) < 2 ∧
      branch_with_normalization (scaleSig 2 sigQ) = branch_with_normalization sigQ :=
  ⟨by norm_num, extract_normalized_scale_invariant sigQ 2 (by norm_num)⟩

/- Behavior of the pipeline on signals shorter than the filter window: the
approximation component has at most two entries, every five-sample window
holds at least three padded zeros, and the order statistic at index 2 of a
sorted five-element list with three zeros is 0. -/

theorem middle_sorted_five (a b c d e : ℚ) (hab : a ≤ b) (hbc : b ≤ c)
    (hcd : c ≤ d) (hde : d ≤ e)
    (h3 : 3 ≤ List.countP (fun x => decide (x = 0)) [a, b, c, d, e]) :
    c = 0 := by
  rcases lt_trichotomy c 0 with hc | hc | hc
  · exfalso
    have ha : a < 0 := lt_of_le_of_lt (hab.trans hbc) hc
    have hb : b < 0 := lt_of_le_of_lt hbc hc
    simp only [List.countP_cons, List.countP_nil, decide_eq_true_eq,
      ha.ne, hb.ne, hc.ne, if_false] at h3
    split_ifs at h3 <;> omega
  · exact hc
  · exfalso
    have hd : 0 < d := lt_of_lt_of_le hc hcd
    have he : 0 < e := lt_of_lt_of_le hd hde
    simp only [List.countP_cons, List.countP_nil, decide_eq_true_eq,
      hc.ne', hd.ne', he.ne', if_false] at h3
    split_ifs at h3 <;> omega

theorem median5_eq_zero_of_zeros (w : List ℚ) (hw : w.length = 5)
    (h3 : 3 ≤ List.countP (fun x => decide (x = 0)) w) : median5 w = 0 := by
  have hperm := List.perm_insertionSort (fun a b : ℚ => a ≤ b) w
  have hsort := List.sorted_insertionSort (fun a b : ℚ => a ≤ b) w
  have hlen : (List.insertionSort (fun a b : ℚ => a ≤ b) w).length = 5 := by
    rw [List.length_insertionSort]
    exact hw
  have hcnt : 3 ≤ List.countP (fun x => decide (x = 0))
      (List.insertionSort (fun a b : ℚ => a ≤ b) w) := by
    rw [List.Perm.countP_eq _ hperm]
    exact h3
  unfold median5
  rcases hsl : List.insertionSort (fun a b : ℚ => a ≤ b) w with
    _ | ⟨a, _ | ⟨b, _ | ⟨c, _ | ⟨d, _ | ⟨e, rest⟩⟩⟩⟩⟩
  · rw [hsl] at hlen
    simp at hlen
  · rw [hsl] at hlen
    simp at hlen
  · rw [hsl] at hlen
    simp at hlen
  · rw [hsl] at hlen
    simp at hlen
  · rw [hsl] at hlen
    simp at hlen
  · rw [hsl] at hlen hsort hcnt
    have hrest : rest = [] := by simpa using hlen
    subst hrest
    simp only [List.sorted_cons, List.mem_cons, List.mem_singleton,
      List.not_mem_nil] at hsort
    obtain ⟨ha, hb, hcs, hd, _⟩ := hsort
    show c = 0
    exact middle_sorted_five a b c d e (ha b (Or.inl rfl)) (hb c (Or.inl rfl))
      (hcs d (Or.inl rfl)) (hd e (Or.inl rfl)) hcnt

theorem medfilt5_len1 (x : ℚ) : medfilt5 [x] = [0] := by
  have hwin : window5 [x] 0 = [0, 0, x, 0, 0] := rfl
  have hcnt : 3 ≤ List.countP (fun z => decide (z = 0)) [0, 0, x, 0, 0] := by
    by_cases hx : x = 0
    · subst hx
      decide
    · simp [List.countP_cons, List.countP_nil, hx]
  have hmed : median5 [0, 0, x, 0, 0] = 0 :=
    median5_eq_zero_of_zeros _ rfl hcnt
  show [median5 (window5 [x] 0)] = [0]
  rw [hwin, hmed]

theorem medfilt5_len2 (x y : ℚ) : medfilt5 [x, y] = [0, 0] := by
  have hwin0 : window5 [x, y] 0 = [0, 0, x, y, 0] := rfl
  have hwin1 : window5 [x, y] 1 = [0, x, y, 0, 0] := rfl
  have hcnt0 : 3 ≤ List.countP (fun z => decide (z = 0)) [0, 0, x, y, 0] := by
    by_cases hx : x = 0 <;> by_cases hy : y = 0 <;>
      simp [List.countP_cons, List.countP_nil, hx, hy]
  have hcnt1 : 3 ≤ List.countP (fun z => decide (z = 0)) [0, x, y, 0, 0] := by
    by_cases hx : x = 0 <;> by_cases hy : y = 0 <;>
      simp [List.countP_cons, List.countP_nil, hx, hy]
  have hmed0 : median5 [0, 0, x, y, 0] = 0 :=
    median5_eq_zero_of_zeros _ rfl hcnt0
  have hmed1 : median5 [0, x, y, 0, 0] = 0 :=
    median5_eq_zero_of_zeros _ rfl hcnt1
  show [median5 (window5 [x, y] 0), median5 (window5 [x, y] 1)] = [0, 0]
  rw [hwin0, hwin1, hmed0, hmed1]

theorem variance_single_zero : variance [(0 : ℚ)] = 0 := by decide

theorem variance_double_zero : variance [(0 : ℚ), 0] = 0 := by decide

/-- C7 counterexample: on the concrete length-3 signal sig3 (shorter than the
filter window) extraction does not fail; the median filter zero-pads the
two-entry approximation and the returned feature is 0. -/
theorem extract_short_signal_cex :
    sig3.length < 5 ∧ branch_without_normalization sig3 = 0 := by
  constructor
  · decide
  · decide

/-- C7 amended: for every signal of length at least 1 and below the filter
window width 5, extract does not fail: the approximation component has at
most two entries, every median window is dominated by boundary zeros, and
the returned Feature is 0. -/
theorem extract_short_signal_zero (s : List QC) (h1 : 1 ≤ s.length)
    (h5 : s.length < 5) : branch_without_normalization s = 0 := by
  rcases s with _ | ⟨a, _ | ⟨b, _ | ⟨c, _ | ⟨d, _ | ⟨e, t⟩⟩⟩⟩⟩
  · simp at h1
  · show variance (medfilt5 [(a + a).re]) / 2 = 0
    rw [medfilt5_len1, variance_single_zero]
    norm_num
  · show variance (medfilt5 [(a + b).re]) / 2 = 0
    rw [medfilt5_len1, variance_single_zero]
    norm_num
  · show variance (medfilt5 [(a + b).re, (c + c).re]) / 2 = 0
    rw [medfilt5_len2, variance_double_zero]
    norm_num
  · show variance (medfilt5 [(a + b).re, (c + d).re]) / 2 = 0
    rw [medfilt5_len2, variance_double_zero]
    norm_num
  · simp only [List.length_cons] at h5
    omega

/-- C7 witness: the amended statement at the concrete length-4 signal
sig4. -/
theorem extract_short_signal_zero_w :
    1 ≤ sig4.length ∧ sig4.length < 5 ∧ branch_without_normalization sig4 = 0 :=
  ⟨by decide, by decide, extract_short_signal_zero sig4 (by decide) (by decide)⟩

/-- C2: extract(signal, normalize = false) is the variance of the width-5
median filter of the real part of the approximation component of the
single-level haar decomposition; the detail component is discarded (the
right-hand side mentions only the first component of the decomposition).
The division by 2 is the embedding's representation of the sqrt-2 factor of
the haar coefficients (header comment). -/
theorem extract_raw_is_wavelet_pipeline (s : List QC) :
    branch_without_normalization s =
      variance (medfilt5 (((haar_wavelet_transform s).1).map QC.re)) / 2 :=
  rfl

/-- C1 counterexample: on the signal sigQ with calibrated threshold value
1/100 and normalization mode true, the source classifier answers PSK (it
uses the raw feature 1/200 < 1/100) while the spec's classify, which uses
the normalized feature 1/12, answers QAM. -/
theorem classify_ignores_mode_cex :
    identifier sigQ (1/100) true ≠ classifySpec sigQ (1/100) true := by
  decide

/-- C1 amended: classify computes the feature with normalize = false no
matter what normalization mode the calibrated threshold carries, and returns
PSK when that feature is strictly below the value, QAM otherwise. -/
theorem classify_uses_raw_feature {α : Type} (b : α) (s : List QC) (v : ℚ) :
    identifier s v b = classifySpec s v false :=
  rfl

/-- C10: the classifier's output does not depend on the threshold_normalized
argument at all, for arguments of arbitrary types; the decision uses the
non-normalized feature and the first threshold only. -/
theorem identifier_independent_of_second_threshold {α β : Type}
    (b₁ : α) (b₂ : β) (s : List QC) (t : ℚ) :
    identifier s t b₁ = identifier s t b₂ ∧
      identifier s t b₁ =
        (if branch_without_normalization s < t then Label.PSK else Label.QAM) :=
  ⟨rfl, rfl⟩

/- Association list facts about the embedded python dict operations: key
membership, the score-of-key shape of every entry, nonemptiness, and
last-write-wins under repeated assignment. -/

theorem keysOf_map_replace (l : List (ℚ × ℕ)) (k : ℚ) (v : ℕ) :
    keysOf (l.map (fun p => if p.1 = k then (k, v) else p)) = keysOf l := by
  unfold keysOf
  rw [List.map_map]
  refine List.map_congr_left (fun p _ => ?_)
  by_cases hp : p.1 = k
  · simp [hp]
  · simp [hp]

theorem keysOf_dinsert (l : List (ℚ × ℕ)) (k m : ℚ) (v : ℕ) :
    m ∈ keysOf (dinsert l k v) ↔ m ∈ keysOf l ∨ m = k := by
  unfold dinsert
  split
  · rename_i hk
    rw [keysOf_map_replace]
    constructor
    · exact Or.inl
    · rintro (h | rfl)
      · exact h
      · exact hk
  · unfold keysOf
    rw [List.map_append]
    simp

theorem entries_dinsert {sc : ℚ → ℕ} {l : List (ℚ × ℕ)}
    (hF : ∀ p ∈ l, p.2 = sc p.1) {k : ℚ} {v : ℕ} (hv : v = sc k) :
    ∀ p ∈ dinsert l k v, p.2 = sc p.1 := by
  unfold dinsert
  split
  · intro p hp
    obtain ⟨q, hq, rfl⟩ := List.mem_map.mp hp
    by_cases hqk : q.1 = k
    · simp [hqk, hv]
    · simp only [hqk, if_false]
      exact hF q hq
  · intro p hp
    rcases List.mem_append.mp hp with h | h
    · exact hF p h
    · simp only [List.mem_singleton] at h
      rw [h]
      exact hv

theorem mem_of_key_entries {sc : ℚ → ℕ} {l : List (ℚ × ℕ)}
    (hF : ∀ p ∈ l, p.2 = sc p.1) {k : ℚ} (hk : k ∈ keysOf l) :
    (k, sc k) ∈ l := by
  unfold keysOf at hk
  obtain ⟨⟨k', v'⟩, hp, hpk⟩ := List.mem_map.mp hk
  have hv := hF _ hp
  simp only at hpk hv
  subst hpk
  subst hv
  exact hp

theorem dinsert_ne_nil (l : List (ℚ × ℕ)) (k : ℚ) (v : ℕ) :
    dinsert l k v ≠ [] := by
  unfold dinsert
  split
  · rename_i hk
    cases l with
    | nil => simp [keysOf] at hk
    | cons p t => simp
  · simp

theorem keysOf_dupdate (d : List (ℚ × ℕ)) : ∀ (l : List (ℚ × ℕ)) (m : ℚ),
    m ∈ keysOf (dupdate l d) ↔ m ∈ keysOf l ∨ m ∈ keysOf d := by
  induction d with
  | nil => simp [dupdate, keysOf]
  | cons p t ih =>
    intro l m
    show m ∈ keysOf (dupdate (dinsert l p.1 p.2) t) ↔ _
    rw [ih, keysOf_dinsert]
    have : m ∈ keysOf (p :: t) ↔ m = p.1 ∨ m ∈ keysOf t := by
      simp [keysOf]
    rw [this]
    tauto

theorem entries_dupdate {sc : ℚ → ℕ} : ∀ {d l : List (ℚ × ℕ)},
    (∀ p ∈ l, p.2 = sc p.1) → (∀ p ∈ d, p.2 = sc p.1) →
    ∀ p ∈ dupdate l d, p.2 = sc p.1 := by
  intro d
  induction d with
  | nil => exact fun hl _ => hl
  | cons q t ih =>
    intro l hl hd
    show ∀ p ∈ dupdate (dinsert l q.1 q.2) t, _
    exact ih (entries_dinsert hl (hd q (List.mem_cons_self _ _)))
      (fun p hp => hd p (List.mem_cons_of_mem _ hp))

theorem entries_foldl {sc : ℚ → ℕ} : ∀ (dicts : List (List (ℚ × ℕ)))
    (init : List (ℚ × ℕ)), (∀ p ∈ init, p.2 = sc p.1) →
    (∀ d ∈ dicts, ∀ p ∈ d, p.2 = sc p.1) →
    ∀ p ∈ dicts.foldl dupdate init, p.2 = sc p.1
  | [], _, hinit, _ => hinit
  | d :: t, init, hinit, hF => by
      show ∀ p ∈ t.foldl dupdate (dupdate init d), _
      exact entries_foldl t _
        (entries_dupdate hinit (hF d (List.mem_cons_self _ _)))
        (fun d' hd' => hF d' (List.mem_cons_of_mem _ hd'))

theorem keysOf_foldl : ∀ (dicts : List (List (ℚ × ℕ))) (init : List (ℚ × ℕ))
    (m : ℚ), m ∈ keysOf (dicts.foldl dupdate init) ↔
      m ∈ keysOf init ∨ ∃ d ∈ dicts, m ∈ keysOf d
  | [], init, m => by simp
  | d :: t, init, m => by
      show m ∈ keysOf (t.foldl dupdate (dupdate init d)) ↔ _
      rw [keysOf_foldl t, keysOf_dupdate]
      simp only [List.mem_cons]
      constructor
      · rintro ((h | h) | ⟨d', hd', h⟩)
        · exact Or.inl h
        · exact Or.inr ⟨d, Or.inl rfl, h⟩
        · exact Or.inr ⟨d', Or.inr hd', h⟩
      · rintro (h | ⟨d', hd' | hd', h⟩)
        · exact Or.inl (Or.inl h)
        · exact Or.inl (Or.inr (hd' ▸ h))
        · exact Or.inr ⟨d', hd', h⟩

theorem entries_trialOutput (data : List (List QC × Label)) (i : ℕ) (r : ℚ) :
    ∀ p ∈ trialOutput data i r, p.2 = score data p.1 := by
  unfold trialOutput
  exact entries_dinsert (entries_dinsert (by simp) rfl) rfl

theorem entries_theAggregate (pairs : List (List QC × List QC)) (draws : ℕ → ℚ)
    (order : List ℕ) :
    ∀ p ∈ theAggregate pairs draws order, p.2 = score (mkData pairs) p.1 := by
  unfold theAggregate aggregateDicts
  refine entries_foldl _ _ (by simp) ?_
  intro d hd
  obtain ⟨i, _, rfl⟩ := List.mem_map.mp hd
  exact entries_trialOutput _ _ _

theorem keysOf_theAggregate (pairs : List (List QC × List QC)) (draws : ℕ → ℚ)
    (order : List ℕ) (m : ℚ) :
    m ∈ keysOf (theAggregate pairs draws order) ↔
      ∃ i ∈ order, m ∈ keysOf (trialOutput (mkData pairs) i (draws i)) := by
  unfold theAggregate aggregateDicts
  rw [keysOf_foldl]
  constructor
  · rintro (h | ⟨d, hd, h⟩)
    · simp [keysOf] at h
    · obtain ⟨i, hi, rfl⟩ := List.mem_map.mp hd
      exact ⟨i, hi, h⟩
  · rintro ⟨i, hi, h⟩
    exact Or.inr ⟨_, List.mem_map_of_mem _ hi, h⟩

/- The maximum of the candidate scores. -/

theorem le_maxList {a : ℕ} : ∀ {l : List ℕ}, a ∈ l → a ≤ maxList l := by
  intro l
  induction l with
  | nil => simp
  | cons x t ih =>
    intro h
    show a ≤ max x (maxList t)
    rcases List.mem_cons.mp h with rfl | h
    · exact le_max_left _ _
    · exact le_trans (ih h) (le_max_right _ _)

theorem maxList_le {l : List ℕ} {b : ℕ} (h : ∀ a ∈ l, a ≤ b) : maxList l ≤ b := by
  induction l with
  | nil => exact Nat.zero_le b
  | cons x t ih =>
    show max x (maxList t) ≤ b
    exact max_le (h x (by simp)) (ih (fun a ha => h a (by simp [ha])))

theorem maxList_mem : ∀ {l : List ℕ}, l ≠ [] → maxList l ∈ l := by
  intro l
  induction l with
  | nil => intro h; exact absurd rfl h
  | cons x t ih =>
    intro _
    show max x (maxList t) ∈ x :: t
    cases t with
    | nil => simp [maxList]
    | cons y s =>
      rcases max_cases x (maxList (y :: s)) with ⟨h1, _⟩ | ⟨h1, _⟩
      · rw [h1]
        simp
      · rw [h1]
        exact List.mem_cons_of_mem _ (ih (by simp))

/- Facts about find?, which embeds python's first-match selection. -/

theorem find?_split {α : Type} {p : α → Bool} : ∀ {l : List α} {a : α},
    l.find? p = some a →
    ∃ l₁ l₂, l = l₁ ++ a :: l₂ ∧ ∀ x ∈ l₁, p x = false := by
  intro l
  induction l with
  | nil => intro a h; simp at h
  | cons b t ih =>
    intro a h
    by_cases hb : p b
    · rw [List.find?_cons_of_pos _ hb] at h
      obtain rfl : b = a := Option.some.inj h
      exact ⟨[], t, rfl, by simp⟩
    · rw [List.find?_cons_of_neg _ hb] at h
      obtain ⟨l₁, l₂, rfl, hl₁⟩ := ih h
      refine ⟨b :: l₁, l₂, rfl, ?_⟩
      intro x hx
      rcases List.mem_cons.mp hx with rfl | hx
      · revert hb
        cases p x <;> simp
      · exact hl₁ x hx

theorem find?_exists {α : Type} {p : α → Bool} {l : List α}
    (h : ∃ x ∈ l, p x = true) : ∃ a, l.find? p = some a :=
  Option.isSome_iff_exists.mp (List.find?_isSome.mpr h)

/-- C8: calibration with an empty reference set (zero generated pairs, hence
zero trials and an empty drain order) aborts with no CalibratedThreshold:
the candidate dict stays empty and python's max over its values raises,
which the embedding reports as none. -/
theorem calibrate_empty_reference (draws : ℕ → ℚ) :
    threshold_calculation [] draws [] = none := rfl

/-- C3: whenever a calibration run returns a result, its Score is at least
the Score of every candidate evaluated by any drained trial, and the
returned candidate is the first entry of the aggregate dict, in insertion
order, that attains the maximum: every earlier entry scores strictly
less. -/
theorem calibrate_max_and_tiebreak (pairs : List (List QC × List QC))
    (draws : ℕ → ℚ) (order : List ℕ) (t : ℚ) (s : ℕ)
    (h : threshold_calculation pairs draws order = some (t, s)) :
    (∀ i ∈ order, ∀ p ∈ trialOutput (mkData pairs) i (draws i), p.2 ≤ s) ∧
    ∃ l₁ l₂, theAggregate pairs draws order = l₁ ++ (t, s) :: l₂ ∧
      ∀ q ∈ l₁, q.2 < s := by
  unfold threshold_calculation pickMax at h
  split at h
  · exact absurd h (by simp)
  · have hts := List.find?_some h
    have hs : s = maxList ((theAggregate pairs draws order).map Prod.snd) :=
      of_decide_eq_true hts
    have hub : ∀ p ∈ theAggregate pairs draws order, p.2 ≤ s := by
      intro p hp
      rw [hs]
      exact le_maxList (List.mem_map_of_mem Prod.snd hp)
    constructor
    · intro i hi p hp
      have hpv : p.2 = score (mkData pairs) p.1 := entries_trialOutput _ _ _ p hp
      have hk : p.1 ∈ keysOf (theAggregate pairs draws order) :=
        (keysOf_theAggregate pairs draws order p.1).mpr
          ⟨i, hi, List.mem_map_of_mem Prod.fst hp⟩
      have hpa : (p.1, score (mkData pairs) p.1) ∈ theAggregate pairs draws order :=
        mem_of_key_entries (entries_theAggregate pairs draws order) hk
      rw [hpv]
      exact hub _ hpa
    · obtain ⟨l₁, l₂, heq, hl₁⟩ := find?_split h
      refine ⟨l₁, l₂, heq, fun q hq => ?_⟩
      have hqle : q.2 ≤ s := hub q (by rw [heq]; exact List.mem_append_left _ hq)
      have hqne : q.2 ≠ s := by
        intro hqs
        have hfalse := hl₁ q hq
        rw [hqs, hs] at hfalse
        simp at hfalse
      exact lt_of_le_of_ne hqle hqne

/-- C3 witness: the concrete run on sepPairs with draw 1/400 returns the
candidate 1/400 with Score 2, which dominates all evaluated candidates and
is the first maximal entry of the aggregate. -/
theorem calibrate_max_and_tiebreak_w :
    threshold_calculation sepPairs smallDraw [0] = some (1/400, 2) ∧
    ((∀ i ∈ ([0] : List ℕ),
        ∀ p ∈ trialOutput (mkData sepPairs) i (smallDraw i), p.2 ≤ 2) ∧
      ∃ l₁ l₂, theAggregate sepPairs smallDraw [0]
          = l₁ ++ ((1/400 : ℚ), 2) :: l₂ ∧ ∀ q ∈ l₁, q.2 < 2) :=
  ⟨by decide, calibrate_max_and_tiebreak sepPairs smallDraw [0] (1/400) 2 (by decide)⟩

/-- A candidate that classifies the whole reference set correctly scores the
full reference-set size. -/
theorem separates_score {data : List (List QC × Label)} {c : ℚ}
    (h : separates data c) : score data c = data.length := by
  unfold score
  rw [List.countP_eq_length]
  intro m hm
  obtain ⟨h1, h2⟩ := h m hm
  by_cases hf : branch_without_normalization m.1 < c
  · simp only [hf, if_true, decide_eq_true_eq]
    cases hm2 : m.2 with
    | PSK => rfl
    | QAM => exact absurd hf (h2 hm2)
  · simp only [hf, if_false, decide_eq_true_eq]
    cases hm2 : m.2 with
    | PSK => exact absurd (h1 hm2) hf
    | QAM => rfl

/-- C6 counterexample: the reference set of sepPairs is perfectly separable
(the only PSK feature 0 lies strictly below the only QAM feature 1/200), yet
with the legal draw 1/25 = 0.04 (uniform in [0, 0.05], wider than the gap)
calibration returns the candidate 9/200 with Score 1, not the full size
2. -/
theorem calibrate_separable_not_full_cex :
    (∀ m₁ ∈ mkData sepPairs, ∀ m₂ ∈ mkData sepPairs,
      m₁.2 = Label.PSK → m₂.2 = Label.QAM →
        branch_without_normalization m₁.1 < branch_without_normalization m₂.1) ∧
    (mkData sepPairs).length = 2 ∧
    threshold_calculation sepPairs bigDraw [0] = some (9/200, 1) :=
  ⟨by decide, by decide, by decide⟩

/-- C6 amended: on a separable reference set calibration returns a full
Score exactly when some drained trial emits a candidate that lands in the
separating gap; the random perturbation may overshoot the gap, so
separability alone does not guarantee a full Score.  Whenever some trial in
the drain order emits a perfectly separating candidate, the returned
CalibratedThreshold's Score is the full reference-set size. -/
theorem calibrate_separating_candidate (pairs : List (List QC × List QC))
    (draws : ℕ → ℚ) (order : List ℕ)
    (h : ∃ i ∈ order, ∃ p ∈ trialOutput (mkData pairs) i (draws i),
      separates (mkData pairs) p.1) :
    ∃ t, threshold_calculation pairs draws order
      = some (t, (mkData pairs).length) := by
  obtain ⟨i, hi, p, hp, hsep⟩ := h
  have hF := entries_theAggregate pairs draws order
  have hk : p.1 ∈ keysOf (theAggregate pairs draws order) :=
    (keysOf_theAggregate pairs draws order p.1).mpr
      ⟨i, hi, List.mem_map_of_mem Prod.fst hp⟩
  have hpa : (p.1, score (mkData pairs) p.1) ∈ theAggregate pairs draws order :=
    mem_of_key_entries hF hk
  have hscore : score (mkData pairs) p.1 = (mkData pairs).length :=
    separates_score hsep
  have hub : ∀ q ∈ theAggregate pairs draws order, q.2 ≤ (mkData pairs).length := by
    intro q hq
    rw [hF q hq]
    exact List.countP_le_length _
  have hmax : maxList ((theAggregate pairs draws order).map Prod.snd)
      = (mkData pairs).length := by
    apply le_antisymm
    · apply maxList_le
      intro a ha
      obtain ⟨q, hq, rfl⟩ := List.mem_map.mp ha
      exact hub q hq
    · refine le_maxList (List.mem_map.mpr ⟨(p.1, score (mkData pairs) p.1), hpa, hscore⟩)
  have hne : theAggregate pairs draws order ≠ [] := by
    intro hnil
    rw [hnil] at hpa
    simp at hpa
  obtain ⟨a, ha⟩ : ∃ a, (theAggregate pairs draws order).find?
      (fun q => decide (q.2 = maxList ((theAggregate pairs draws order).map Prod.snd)))
        = some a :=
    find?_exists ⟨(p.1, score (mkData pairs) p.1), hpa, by
      simp only [hmax, hscore, decide_eq_true_eq]⟩
  have has : a.2 = (mkData pairs).length := by
    have hd := List.find?_some ha
    simp only [decide_eq_true_eq] at hd
    rw [hmax] at hd
    exact hd
  refine ⟨a.1, ?_⟩
  unfold threshold_calculation pickMax
  rw [if_neg (by simpa [List.isEmpty_iff] using hne), ha, ← has]

/-- C6 witness: on sepPairs with the small draw 1/400 the lower candidate
1/400 separates the classes, and calibration indeed returns Score 2, the
full reference-set size. -/
theorem calibrate_separating_candidate_w :
    (∃ i ∈ ([0] : List ℕ), ∃ p ∈ trialOutput (mkData sepPairs) i (smallDraw i),
      separates (mkData sepPairs) p.1) ∧
    ∃ t, threshold_calculation sepPairs smallDraw [0]
      = some (t, (mkData sepPairs).length) :=
  ⟨by decide, calibrate_separating_candidate sepPairs smallDraw [0] (by decide)⟩

/-- When a candidate dict is nonempty, picking the maximum returns some
entry whose Score is the maximum of the dict values. -/
theorem pickMax_snd_of_ne_nil {agg : List (ℚ × ℕ)} (hne : agg ≠ []) :
    (pickMax agg).map Prod.snd = some (maxList (agg.map Prod.snd)) := by
  unfold pickMax
  rw [if_neg (by simpa [List.isEmpty_iff] using hne)]
  have hvne : agg.map Prod.snd ≠ [] := by
    intro hh
    exact hne (List.map_eq_nil_iff.mp hh)
  obtain ⟨q, hq, hqv⟩ := List.mem_map.mp (maxList_mem hvne)
  obtain ⟨a, ha⟩ : ∃ a, agg.find?
      (fun p => decide (p.2 = maxList (agg.map Prod.snd))) = some a :=
    find?_exists ⟨q, hq, by simpa using hqv⟩
  rw [ha]
  have hd := List.find?_some ha
  simp only [decide_eq_true_eq] at hd
  simp [hd]

/-- C4 counterexample: two runs on the same reference set (tiePairs) with
the same per-trial draws, differing only in the order the two trial dicts
are drained from the queue (thread completion order), return different
CalibratedThresholds: all four candidates tie at Score 2 and the tie-break
picks whichever trial was drained first. -/
theorem calibrate_schedule_cex :
    threshold_calculation tiePairs tieDraws [0, 1] = some (1/100, 2) ∧
    threshold_calculation tiePairs tieDraws [1, 0] = some (1/50, 2) ∧
    threshold_calculation tiePairs tieDraws [0, 1]
      ≠ threshold_calculation tiePairs tieDraws [1, 0] :=
  ⟨by decide, by decide, by decide⟩

/-- C4 amended: for a fixed assignment of random draws to trials, the Score
of the returned CalibratedThreshold is the same for every queue drain order
(any permutation of the trials); the returned threshold value itself can
differ between drain orders when several candidates tie at the maximum
Score, and the draw consumed by each thread also depends on scheduling, so
a fixed seed alone does not determine the returned value. -/
theorem calibrate_score_schedule_invariant (pairs : List (List QC × List QC))
    (draws : ℕ → ℚ) (order₁ order₂ : List ℕ) (h : order₁.Perm order₂) :
    (threshold_calculation pairs draws order₁).map Prod.snd =
      (threshold_calculation pairs draws order₂).map Prod.snd := by
  have hkeys : ∀ m, m ∈ keysOf (theAggregate pairs draws order₁)
      ↔ m ∈ keysOf (theAggregate pairs draws order₂) := by
    intro m
    rw [keysOf_theAggregate, keysOf_theAggregate]
    constructor
    · rintro ⟨i, hi, hm⟩
      exact ⟨i, h.subset hi, hm⟩
    · rintro ⟨i, hi, hm⟩
      exact ⟨i, h.symm.subset hi, hm⟩
  have hF₁ := entries_theAggregate pairs draws order₁
  have hF₂ := entries_theAggregate pairs draws order₂
  have hvals : ∀ v, v ∈ (theAggregate pairs draws order₁).map Prod.snd
      ↔ v ∈ (theAggregate pairs draws order₂).map Prod.snd := by
    intro v
    constructor
    · intro hv
      obtain ⟨q, hq, rfl⟩ := List.mem_map.mp hv
      have hqa := mem_of_key_entries hF₂
        ((hkeys q.1).mp (List.mem_map_of_mem Prod.fst hq))
      exact List.mem_map.mpr ⟨_, hqa, (hF₁ q hq).symm⟩
    · intro hv
      obtain ⟨q, hq, rfl⟩ := List.mem_map.mp hv
      have hqa := mem_of_key_entries hF₁
        ((hkeys q.1).mpr (List.mem_map_of_mem Prod.fst hq))
      exact List.mem_map.mpr ⟨_, hqa, (hF₂ q hq).symm⟩
  have hmax : maxList ((theAggregate pairs draws order₁).map Prod.snd)
      = maxList ((theAggregate pairs draws order₂).map Prod.snd) :=
    le_antisymm (maxList_le (fun a ha => le_maxList ((hvals a).mp ha)))
      (maxList_le (fun a ha => le_maxList ((hvals a).mpr ha)))
  have hempty : theAggregate pairs draws order₁ = []
      ↔ theAggregate pairs draws order₂ = [] := by
    constructor
    · intro h1
      cases hagg2 : theAggregate pairs draws order₂ with
      | nil => rfl
      | cons q tl =>
        exfalso
        have hk : q.1 ∈ keysOf (theAggregate pairs draws order₂) := by
          rw [hagg2]
          simp [keysOf]
        have hk1 := (hkeys q.1).mpr hk
        rw [h1] at hk1
        simp [keysOf] at hk1
    · intro h2
      cases hagg1 : theAggregate pairs draws order₁ with
      | nil => rfl
      | cons q tl =>
        exfalso
        have hk : q.1 ∈ keysOf (theAggregate pairs draws order₁) := by
          rw [hagg1]
          simp [keysOf]
        have hk2 := (hkeys q.1).mp hk
        rw [h2] at hk2
        simp [keysOf] at hk2
  unfold threshold_calculation
  by_cases h1 : theAggregate pairs draws order₁ = []
  · rw [h1, hempty.mp h1]
  · have h2 : theAggregate pairs draws order₂ ≠ [] := fun hh => h1 (hempty.mpr hh)
    rw [pickMax_snd_of_ne_nil h1, pickMax_snd_of_ne_nil h2, hmax]

/-- C4 witness: the two drain orders of the tie scenario are permutations of
each other and the returned Scores agree (both 2), even though the returned
threshold values differ. -/
theorem calibrate_score_schedule_invariant_w :
    ([0, 1] : List ℕ).Perm [1, 0] ∧
    (threshold_calculation tiePairs tieDraws [0, 1]).map Prod.snd =
      (threshold_calculation tiePairs tieDraws [1, 0]).map Prod.snd :=
  ⟨by decide,
    calibrate_score_schedule_invariant tiePairs tieDraws [0, 1] [1, 0] (by decide)⟩

/- Last-write-wins of the dict merge, for the aggregation claim. -/

theorem find?_replace_of_mem (k : ℚ) (v : ℕ) : ∀ (l : List (ℚ × ℕ)),
    k ∈ keysOf l →
    ((l.map fun q => if q.1 = k then (k, v) else q).find?
      fun q => decide (q.1 = k)) = some (k, v)
  | [], h => by simp [keysOf] at h
  | p :: t, h => by
      by_cases hp : p.1 = k
      · simp only [List.map_cons, if_pos hp]
        exact List.find?_cons_of_pos _ (by simp)
      · simp only [List.map_cons, if_neg hp]
        rw [List.find?_cons_of_neg _ (by simp [hp])]
        apply find?_replace_of_mem k v t
        simp only [keysOf, List.map_cons, List.mem_cons] at h
        rcases h with h | h
        · exact absurd h.symm hp
        · exact h

theorem find?_append_right (k : ℚ) (v : ℕ) : ∀ (l : List (ℚ × ℕ)),
    k ∉ keysOf l →
    ((l ++ [(k, v)]).find? fun q => decide (q.1 = k)) = some (k, v)
  | [], _ => List.find?_cons_of_pos _ (by simp)
  | p :: t, h => by
      have hp : ¬ p.1 = k := fun hpk => h (hpk ▸ List.mem_cons_self _ _)
      show ((p :: (t ++ [(k, v)])).find? _) = _
      rw [List.find?_cons_of_neg _ (by simp [hp])]
      exact find?_append_right k v t (fun hkt => h (List.mem_cons_of_mem _ hkt))

theorem lookupV_dinsert_self (l : List (ℚ × ℕ)) (k : ℚ) (v : ℕ) :
    lookupV (dinsert l k v) k = some v := by
  unfold dinsert
  split
  · rename_i hk
    unfold lookupV
    rw [find?_replace_of_mem k v l hk]
    rfl
  · rename_i hk
    unfold lookupV
    rw [find?_append_right k v l hk]
    rfl

theorem find?_replace_other (k : ℚ) (v : ℕ) (k' : ℚ) (hne : k' ≠ k) :
    ∀ (l : List (ℚ × ℕ)),
    ((l.map fun q => if q.1 = k then (k, v) else q).find?
      fun q => decide (q.1 = k')) = l.find? fun q => decide (q.1 = k')
  | [] => rfl
  | p :: t => by
      by_cases hp : p.1 = k
      · simp only [List.map_cons, if_pos hp]
        rw [List.find?_cons_of_neg _ (by simp [Ne.symm hne]),
          List.find?_cons_of_neg _ (by simp [hp, Ne.symm hne])]
        exact find?_replace_other k v k' hne t
      · simp only [List.map_cons, if_neg hp]
        by_cases hpk : p.1 = k'
        · rw [List.find?_cons_of_pos _ (by simp [hpk]),
            List.find?_cons_of_pos _ (by simp [hpk])]
        · rw [List.find?_cons_of_neg _ (by simp [hpk]),
            List.find?_cons_of_neg _ (by simp [hpk])]
          exact find?_replace_other k v k' hne t

theorem find?_append_other (k : ℚ) (v : ℕ) (k' : ℚ) (hne : k' ≠ k) :
    ∀ (l : List (ℚ × ℕ)),
    ((l ++ [(k, v)]).find? fun q => decide (q.1 = k'))
      = l.find? fun q => decide (q.1 = k')
  | [] => by
      show (([(k, v)]).find? _) = none
      rw [List.find?_cons_of_neg _ (by simp [Ne.symm hne])]
      rfl
  | p :: t => by
      by_cases hpk : p.1 = k'
      · show ((p :: (t ++ [(k, v)])).find? _) = ((p :: t).find? _)
        rw [List.find?_cons_of_pos _ (by simp [hpk]),
          List.find?_cons_of_pos _ (by simp [hpk])]
      · show ((p :: (t ++ [(k, v)])).find? _) = ((p :: t).find? _)
        rw [List.find?_cons_of_neg _ (by simp [hpk]),
          List.find?_cons_of_neg _ (by simp [hpk])]
        exact find?_append_other k v k' hne t

theorem lookupV_dinsert_other (l : List (ℚ × ℕ)) (k : ℚ) (v : ℕ) (k' : ℚ)
    (hne : k' ≠ k) : lookupV (dinsert l k v) k' = lookupV l k' := by
  unfold dinsert
  split
  · unfold lookupV
    rw [find?_replace_other k v k' hne l]
  · unfold lookupV
    rw [find?_append_other k v k' hne l]

theorem lookupV_foldl_writes (k : ℚ) : ∀ (writes : List (ℚ × ℕ))
    (l : List (ℚ × ℕ)),
    lookupV (writes.foldl (fun acc p => dinsert acc p.1 p.2) l) k =
      match (writes.filter fun p => decide (p.1 = k)).getLast? with
      | some q => some q.2
      | none => lookupV l k
  | [], l => rfl
  | w :: ws, l => by
      show lookupV (ws.foldl _ (dinsert l w.1 w.2)) k = _
      rw [lookupV_foldl_writes k ws (dinsert l w.1 w.2)]
      by_cases hw : w.1 = k
      · have hfil : (w :: ws).filter (fun p => decide (p.1 = k))
            = w :: ws.filter (fun p => decide (p.1 = k)) := by
          simp [List.filter_cons, hw]
        rw [hfil]
        cases hft : ws.filter (fun p => decide (p.1 = k)) with
        | nil =>
            show lookupV (dinsert l w.1 w.2) k = some w.2
            rw [← hw]
            exact lookupV_dinsert_self l w.1 w.2
        | cons q tl =>
            rw [List.getLast?_cons_cons]
            cases hgl : (q :: tl).getLast? with
            | none => simp [List.getLast?_eq_none_iff] at hgl
            | some r => rfl
      · have hfil : (w :: ws).filter (fun p => decide (p.1 = k))
            = ws.filter (fun p => decide (p.1 = k)) := by
          simp [List.filter_cons, hw]
        rw [hfil]
        cases hft : ws.filter (fun p => decide (p.1 = k)) with
        | nil =>
            exact lookupV_dinsert_other l w.1 w.2 k (fun hk => hw hk.symm)
        | cons q tl =>
            cases hgl : (q :: tl).getLast? with
            | none => simp [List.getLast?_eq_none_iff] at hgl
            | some r => rfl

theorem aggregateDicts_foldl_flatten : ∀ (dicts : List (List (ℚ × ℕ)))
    (init : List (ℚ × ℕ)),
    dicts.foldl dupdate init
      = dicts.flatten.foldl (fun acc p => dinsert acc p.1 p.2) init
  | [], _ => rfl
  | d :: t, init => by
      show t.foldl dupdate (dupdate init d) = _
      rw [List.flatten_cons, List.foldl_append]
      exact aggregateDicts_foldl_flatten t (dupdate init d)

/-- C5 counterexample: with equal draws the two trials of the tie scenario
emit the same candidate values 1/100 and -1/100, each with Score 2; the
source aggregate keeps Score 2 for each value (dict update replaces),
whereas the spec's accumulating aggregate would store 4. -/
theorem aggregate_replaces_cex :
    theAggregate tiePairs collideDraws [0, 1] = [(1/100, 2), (-1/100, 2)] ∧
    theAggregateSpec tiePairs collideDraws [0, 1] = [(1/100, 4), (-1/100, 4)] :=
  ⟨by decide, by decide⟩

/-- C5 amended: when the same floating-point candidate value is emitted by
several trials, the aggregate stores the Score of the LAST write drained
from the queue; earlier Scores for that exact value are replaced, not
summed.  (Because the Score is a function of the candidate value and the
reference set, the replaced and replacing Scores are in fact equal, so the
replacement is observable only against the accumulating semantics the spec
describes.) -/
theorem aggregate_last_write_wins (pairs : List (List QC × List QC))
    (draws : ℕ → ℚ) (order : List ℕ) (k : ℚ) :
    lookupV (theAggregate pairs draws order) k =
      match ((order.map fun i => trialOutput (mkData pairs) i (draws i)).flatten.filter
        fun p => decide (p.1 = k)).getLast? with
      | some q => some q.2
      | none => none := by
  unfold theAggregate aggregateDicts
  rw [aggregateDicts_foldl_flatten, lookupV_foldl_writes]
  cases ((order.map fun i => trialOutput (mkData pairs) i (draws i)).flatten.filter
      fun p => decide (p.1 = k)).getLast? with
  | none => rfl
  | some q => rfl

end ModId
